import Mathlib

/-!
The cart store of `src/App.js`.

A shallow embedding of the Redux slice `cartSlice` (its initial state and its four
reducers `addToCart`, `increase`, `decrease`, `remove`), of the catalog `plants`, and of
the values the `Header` and the `CartPage` components derive from the store.

Modelling conventions.

* A JavaScript array is a `List`; the object `{ items: [...] }` is the structure
  `CartState`; the store's root state `{ cart: ... }` is `RootState`.
* The numeric fields `id`, `price` and `quantity` hold JavaScript numbers with integer
  values and are integers (`Int`) here.  Comparisons (`===`, `!==`, `>`) are exact on them.
  Arithmetic is double arithmetic: the result of `+`, `-` and `*` is the exact result
  rounded to 53 significant bits, ties to even (`toDouble`), and becomes an infinity beyond
  the exponent range (`fromExact`).  The reducers add and subtract 1, which never leaves
  the exponent range; the totals are values of `JSNumber`.
* `totalItems`, `totalCost` and `cartCount` are the three `reduce` folds with the sums
  taken over the integers; `totalItems64`, `totalCost64` and `cartCount64` are the same
  folds in double arithmetic.  The two agree as long as no intermediate result exceeds
  `2 ^ 53` in absolute value.
* The reducers are written against an Immer draft: the "mutation" of the draft yields the
  next state.  A reducer is therefore a function from the state and the payload to the
  next state.
-/

set_option exponentiation.threshold 2048

namespace JaysPlant

/-- A catalog record: the fields of the objects of `plants`. -/
structure Product where
  id : Int
  name : String
  price : Int
  category : String
  image : String
  deriving DecidableEq, Repr

/-- A cart entry `{ ...product, quantity }`: a product's fields plus a quantity. -/
structure CartEntry extends Product where
  quantity : Int
  deriving DecidableEq, Repr

/-- The slice state `{ items: [...] }`. -/
structure CartState where
  items : List CartEntry
  deriving DecidableEq, Repr

/-- The store's state, `configureStore({ reducer: { cart: cartSlice.reducer } })`. -/
structure RootState where
  cart : CartState
  deriving DecidableEq, Repr

/-- The slice's `initialState: { items: [] }`. -/
def initialState : CartState := { items := [] }

/-- The number of low-order bits of `m` below its 53 leading bits: the least `e` with
`m / 2 ^ e < 2 ^ 53`.  The first argument bounds the search; `m` itself is enough. -/
def dropBits : Nat → Nat → Nat
  | 0, _ => 0
  | fuel + 1, m => if m < 2 ^ 53 then 0 else dropBits fuel (m / 2) + 1

/-- Rounding of a natural number to 53 significant bits, to the nearest such number and,
at a tie, to the one whose last kept bit is 0: the rounding of a double's significand.
Numbers up to `2 ^ 53` are kept as they are. -/
def roundNat (m : Nat) : Nat :=
  if m ≤ 2 ^ 53 then m
  else
    let e := dropBits m m
    let q := m / 2 ^ e
    let r := m % 2 ^ e
    if 2 * r < 2 ^ e then q * 2 ^ e
    else if 2 ^ e < 2 * r then (q + 1) * 2 ^ e
    else if q % 2 = 0 then q * 2 ^ e
    else (q + 1) * 2 ^ e

/-- The integer `n` rounded to 53 significant bits, sign kept: the double nearest to `n`
as long as the exponent range is not left. -/
def toDouble (n : Int) : Int :=
  if 0 ≤ n then (roundNat n.natAbs : Int) else -(roundNat n.natAbs : Int)

/-- The values of the arithmetic expressions of the components: a double with an integer
value, an infinity with its sign, or NaN. -/
inductive JSNumber where
  | finite (value : Int)
  | infinity (negative : Bool)
  | nan
  deriving DecidableEq, Repr

/-- The double that stands for the exact integer result `n` of an operation: `n` rounded,
or the infinity of its sign when the rounded magnitude reaches `2 ^ 1024`. -/
def fromExact (n : Int) : JSNumber :=
  if (toDouble n).natAbs < 2 ^ 1024 then .finite (toDouble n)
  else .infinity (decide (n < 0))

/-- The operator `+` on numbers. -/
def jsAdd : JSNumber → JSNumber → JSNumber
  | .finite a, .finite b => fromExact (a + b)
  | .finite _, .infinity s => .infinity s
  | .infinity s, .finite _ => .infinity s
  | .infinity s, .infinity t => if s = t then .infinity s else .nan
  | .nan, _ => .nan
  | _, .nan => .nan

/-- The operator `*` on two numbers with integer values. -/
def jsMul (a b : Int) : JSNumber := fromExact (a * b)

/-- `Array.prototype.find` on the draft: the first element satisfying `pred`, together
with its position (the element is returned by reference, so that the reducer writes
through it); `none` stands for `undefined`. -/
def find (pred : CartEntry → Bool) : List CartEntry → Option (Nat × CartEntry)
  | [] => none
  | i :: rest =>
    if pred i then some (0, i)
    else match find pred rest with
      | some (k, item) => some (k + 1, item)
      | none => none

/-- Reducer `addToCart`:
`const item = state.items.find(i => i.id === action.payload.id);`
`if (!item) state.items.push({ ...action.payload, quantity: 1 });` -/
def addToCart (state : CartState) (payload : Product) : CartState :=
  match find (fun i => decide (i.id = payload.id)) state.items with
  | some _ => state
  | none => { items := state.items ++ [{ toProduct := payload, quantity := 1 }] }

/-- Reducer `increase`:
`const item = state.items.find(i => i.id === action.payload);`
`if (item) item.quantity += 1;`
The addition is a double addition: the new quantity is `quantity + 1` rounded. -/
def increase (state : CartState) (payload : Int) : CartState :=
  match find (fun i => decide (i.id = payload)) state.items with
  | some (k, item) =>
    { items := state.items.set k { item with quantity := toDouble (item.quantity + 1) } }
  | none => state

/-- Reducer `decrease`:
`const item = state.items.find(i => i.id === action.payload);`
`if (item && item.quantity > 1) item.quantity -= 1;`
The subtraction is a double subtraction: the new quantity is `quantity - 1` rounded. -/
def decrease (state : CartState) (payload : Int) : CartState :=
  match find (fun i => decide (i.id = payload)) state.items with
  | some (k, item) =>
    if item.quantity > 1 then
      { items := state.items.set k { item with quantity := toDouble (item.quantity - 1) } }
    else state
  | none => state

/-- Reducer `remove`:
`state.items = state.items.filter(i => i.id !== action.payload);` -/
def remove (state : CartState) (payload : Int) : CartState :=
  { items := state.items.filter (fun i => decide (i.id ≠ payload)) }

/-- The actions of the slice, `cartSlice.actions`, each with its payload. -/
inductive Action where
  | addToCart (payload : Product)
  | increase (payload : Int)
  | decrease (payload : Int)
  | remove (payload : Int)
  deriving DecidableEq, Repr

/-- The slice reducer `cartSlice.reducer`: dispatch on the action type. -/
def reducer (state : CartState) : Action → CartState
  | .addToCart payload => addToCart state payload
  | .increase payload => increase state payload
  | .decrease payload => decrease state payload
  | .remove payload => remove state payload

/-- The state of the store after dispatching `actions`, in order, from `initialState`. -/
def run (actions : List Action) : CartState :=
  actions.foldl reducer initialState

/-- A cart state the store can be in: the result of dispatching some finite sequence of
actions from the initial state. -/
def Reachable (state : CartState) : Prop :=
  ∃ actions : List Action, run actions = state

/-- The catalog `plants`. -/
def plants : List Product :=
  [ { id := 1, name := "Snake Plant", price := 350, category := "Indoor",
      image := "https://via.placeholder.com/100" },
    { id := 2, name := "Peace Lily", price := 420, category := "Indoor",
      image := "https://via.placeholder.com/100" },
    { id := 3, name := "Aloe Vera", price := 280, category := "Succulent",
      image := "https://via.placeholder.com/100" },
    { id := 4, name := "Cactus", price := 200, category := "Succulent",
      image := "https://via.placeholder.com/100" },
    { id := 5, name := "Spider Plant", price := 300, category := "Hanging",
      image := "https://via.placeholder.com/100" },
    { id := 6, name := "Boston Fern", price := 390, category := "Hanging",
      image := "https://via.placeholder.com/100" } ]

/-- `Header`: `state.cart.items.reduce((sum, item) => sum + item.quantity, 0)`, the sum
taken over the integers. -/
def cartCount (state : RootState) : Int :=
  state.cart.items.foldl (fun sum item => sum + item.quantity) 0

/-- `CartPage`: `cart.reduce((sum, i) => sum + i.quantity, 0)` with
`cart = state.cart.items`, the sum taken over the integers. -/
def totalItems (state : RootState) : Int :=
  state.cart.items.foldl (fun sum i => sum + i.quantity) 0

/-- `CartPage`: `cart.reduce((sum, i) => sum + i.quantity * i.price, 0)` with
`cart = state.cart.items`, the products and the sum taken over the integers. -/
def totalCost (state : RootState) : Int :=
  state.cart.items.foldl (fun sum i => sum + i.quantity * i.price) 0

/-- `Header`: `state.cart.items.reduce((sum, item) => sum + item.quantity, 0)` in double
arithmetic. -/
def cartCount64 (state : RootState) : JSNumber :=
  state.cart.items.foldl (fun sum item => jsAdd sum (.finite item.quantity)) (.finite 0)

/-- `CartPage`: `cart.reduce((sum, i) => sum + i.quantity, 0)` in double arithmetic. -/
def totalItems64 (state : RootState) : JSNumber :=
  state.cart.items.foldl (fun sum i => jsAdd sum (.finite i.quantity)) (.finite 0)

/-- `CartPage`: `cart.reduce((sum, i) => sum + i.quantity * i.price, 0)` in double
arithmetic. -/
def totalCost64 (state : RootState) : JSNumber :=
  state.cart.items.foldl (fun sum i => jsAdd sum (jsMul i.quantity i.price)) (.finite 0)

/-- `CartPage`: the test `cart.length === 0` that selects the message
"Your cart is empty." over the totals and the item list. -/
def showsEmptyMessage (state : RootState) : Bool :=
  state.cart.items.length == 0

/-- The ids of the entries of a cart, in order. -/
def ids (state : CartState) : List Int :=
  state.items.map (fun i => i.id)

/-- The catalog product with id 1. -/
def snakePlant : Product :=
  { id := 1, name := "Snake Plant", price := 350, category := "Indoor",
    image := "https://via.placeholder.com/100" }

/-- A one-entry cart used as a concrete input: Peace Lily, three of them. -/
def lilyCart : CartState :=
  { items := [{ id := 2, name := "Peace Lily", price := 420, category := "Indoor",
                image := "https://via.placeholder.com/100", quantity := 3 }] }

/-- A two-entry cart used as a concrete input: one Snake Plant, then three Peace Lilies. -/
def mixedCart : CartState :=
  { items := [{ toProduct := snakePlant, quantity := 1 },
              { id := 2, name := "Peace Lily", price := 420, category := "Indoor",
                image := "https://via.placeholder.com/100", quantity := 3 }] }

/-- The one-entry cart holding Snake Plant with quantity `q`. -/
def snakeCart (q : Int) : CartState :=
  { items := [{ toProduct := snakePlant, quantity := q }] }

/-- A product whose price is the largest odd double, `2 ^ 53 - 1`. -/
def orchid : Product :=
  { id := 7, name := "Orchid", price := 9007199254740991, category := "Indoor",
    image := "https://via.placeholder.com/100" }

/-- A two-entry cart: Snake Plant with quantity `2 ^ 53`, then one Peace Lily. -/
def heavyCart : CartState :=
  { items := [{ toProduct := snakePlant, quantity := 9007199254740992 },
              { id := 2, name := "Peace Lily", price := 420, category := "Indoor",
                image := "https://via.placeholder.com/100", quantity := 1 }] }

/-- The scenario of the specification: add Snake Plant, increase it, decrease it twice,
add it again, remove it. -/
def scenario : List Action :=
  [.addToCart snakePlant, .increase 1, .decrease 1, .decrease 1, .addToCart snakePlant,
   .remove 1]

/-! Facts about the rounding of double arithmetic. -/

theorem dropBits_pow_le (fuel m : Nat) (hm : 1 ≤ m) : 2 ^ dropBits fuel m ≤ m := by
  induction fuel generalizing m with
  | zero => simpa [dropBits] using hm
  | succ k ih =>
    by_cases h : m < 2 ^ 53
    · have hd : dropBits (k + 1) m = 0 := by rw [dropBits, if_pos h]
      rw [hd]
      simpa using hm
    · have hd : dropBits (k + 1) m = dropBits k (m / 2) + 1 := by rw [dropBits, if_neg h]
      have h2 : 1 ≤ m / 2 := by
        have h53 : (2:Nat) ≤ 2 ^ 53 := by norm_num
        omega
      have := ih (m / 2) h2
      rw [hd, Nat.pow_succ]
      omega

theorem roundNat_exact {m : Nat} (h : m ≤ 2 ^ 53) : roundNat m = m := by
  rw [roundNat, if_pos h]

theorem roundNat_pos {m : Nat} (hm : 1 ≤ m) : 1 ≤ roundNat m := by
  by_cases h : m ≤ 2 ^ 53
  · rw [roundNat_exact h]; exact hm
  · have hpow : 1 ≤ 2 ^ dropBits m m := Nat.one_le_two_pow
    have hq : 1 ≤ m / 2 ^ dropBits m m :=
      (Nat.one_le_div_iff (by positivity)).mpr (dropBits_pow_le m m hm)
    have h1 : 1 ≤ m / 2 ^ dropBits m m * 2 ^ dropBits m m := Nat.mul_pos hq hpow
    have h2 : 1 ≤ (m / 2 ^ dropBits m m + 1) * 2 ^ dropBits m m :=
      Nat.mul_pos (Nat.succ_pos _) hpow
    rw [roundNat, if_neg h]
    dsimp only
    split_ifs <;> assumption

theorem toDouble_exact {n : Int} (h1 : -(2 ^ 53) ≤ n) (h2 : n ≤ 2 ^ 53) : toDouble n = n := by
  have habs : n.natAbs ≤ 2 ^ 53 := by omega
  unfold toDouble
  rw [roundNat_exact habs]
  split_ifs with h <;> omega

theorem toDouble_pos {n : Int} (h : 1 ≤ n) : 1 ≤ toDouble n := by
  have habs : 1 ≤ n.natAbs := by omega
  have := roundNat_pos habs
  have h0 : 0 ≤ n := by omega
  simp only [toDouble, h0, if_true]
  exact_mod_cast this

theorem fromExact_exact {n : Int} (h1 : -(2 ^ 53) ≤ n) (h2 : n ≤ 2 ^ 53) :
    fromExact n = .finite n := by
  have habs : n.natAbs < 2 ^ 1024 := by
    have : n.natAbs ≤ 2 ^ 53 := by omega
    have : (2:Nat) ^ 53 < 2 ^ 1024 := by norm_num
    omega
  rw [fromExact, toDouble_exact h1 h2, if_pos habs]

theorem fromExact_pos {n : Int} (h : 1 ≤ n) :
    fromExact n = .infinity false ∨ ∃ m, 1 ≤ m ∧ fromExact n = .finite m := by
  unfold fromExact
  split_ifs with hlt
  · exact Or.inr ⟨_, toDouble_pos h, rfl⟩
  · left
    have : ¬ n < 0 := by omega
    simp [this]

/-! Facts about `find` and about writing through the reference it returns. -/

theorem find_eq_none {pred : CartEntry → Bool} {l : List CartEntry} :
    find pred l = none ↔ ∀ x ∈ l, pred x = false := by
  induction l with
  | nil => simp [find]
  | cons a t ih =>
    by_cases ha : pred a = true
    · simp [find, ha]
    · cases hf : find pred t with
      | none => simpa [find, ha, hf] using ih.mp hf
      | some r =>
        have hne : ¬ ∀ x ∈ t, pred x = false := fun hall => by
          rw [ih.mpr hall] at hf; cases hf
        simpa [find, ha, hf] using hne

theorem find_eq_some {pred : CartEntry → Bool} {l : List CartEntry} {k : Nat}
    {item : CartEntry} (h : find pred l = some (k, item)) :
    ∃ pre post, l = pre ++ item :: post ∧ pre.length = k ∧
      (∀ x ∈ pre, pred x = false) ∧ pred item = true := by
  induction l generalizing k with
  | nil => simp [find] at h
  | cons a t ih =>
    by_cases ha : pred a = true
    · simp only [find, ha, if_true, Option.some.injEq, Prod.mk.injEq] at h
      obtain ⟨rfl, rfl⟩ := h
      exact ⟨[], t, rfl, rfl, by simp, ha⟩
    · cases hf : find pred t with
      | none => simp [find, ha, hf] at h
      | some r =>
        obtain ⟨j, it⟩ := r
        simp only [find, ha, hf, Option.some.injEq, Prod.mk.injEq] at h
        obtain ⟨rfl, rfl⟩ := h
        obtain ⟨pre, post, hl, hlen, hpre, hit⟩ := ih hf
        refine ⟨a :: pre, post, by simp [hl], by simp [hlen], ?_, hit⟩
        intro x hx
        rcases List.mem_cons.mp hx with rfl | hx
        · simpa using ha
        · exact hpre x hx

theorem find_of_split {pred : CartEntry → Bool} (pre : List CartEntry) (item : CartEntry)
    (post : List CartEntry) (hpre : ∀ x ∈ pre, pred x = false) (hit : pred item = true) :
    find pred (pre ++ item :: post) = some (pre.length, item) := by
  induction pre with
  | nil => simp [find, hit]
  | cons a t ih =>
    have ha : pred a = false := hpre a (List.mem_cons_self _ _)
    have := ih (fun x hx => hpre x (List.mem_cons_of_mem _ hx))
    simp [find, ha, this]

theorem set_split (pre : List CartEntry) (item new : CartEntry) (post : List CartEntry) :
    (pre ++ item :: post).set pre.length new = pre ++ new :: post := by
  induction pre with
  | nil => rfl
  | cons a t ih => simp [ih]

theorem exists_first {pred : CartEntry → Bool} {l : List CartEntry}
    (h : ∃ x ∈ l, pred x = true) :
    ∃ pre item post, l = pre ++ item :: post ∧ (∀ x ∈ pre, pred x = false) ∧
      pred item = true := by
  cases hf : find pred l with
  | none =>
    obtain ⟨x, hx, hp⟩ := h
    rw [find_eq_none.mp hf x hx] at hp; cases hp
  | some r =>
    obtain ⟨k, item⟩ := r
    obtain ⟨pre, post, hl, _, hpre, hit⟩ := find_eq_some hf
    exact ⟨pre, item, post, hl, hpre, hit⟩

/-! The reducers in terms of the first entry carrying the payload's id. -/

theorem addToCart_absent (s : CartState) (p : Product)
    (h : ∀ e ∈ s.items, e.id ≠ p.id) :
    addToCart s p = { items := s.items ++ [{ toProduct := p, quantity := 1 }] } := by
  have hf : find (fun i => decide (i.id = p.id)) s.items = none :=
    find_eq_none.mpr (fun x hx => by simpa using h x hx)
  simp [addToCart, hf]

theorem addToCart_present (s : CartState) (p : Product)
    (h : ∃ e ∈ s.items, e.id = p.id) : addToCart s p = s := by
  cases hf : find (fun i => decide (i.id = p.id)) s.items with
  | none =>
    obtain ⟨e, he, hid⟩ := h
    have := find_eq_none.mp hf e he
    simp [hid] at this
  | some r => simp [addToCart, hf]

theorem increase_absent (s : CartState) (id : Int)
    (h : ∀ e ∈ s.items, e.id ≠ id) : increase s id = s := by
  have hf : find (fun i => decide (i.id = id)) s.items = none :=
    find_eq_none.mpr (fun x hx => by simpa using h x hx)
  simp [increase, hf]

theorem increase_split (s : CartState) (id : Int) (pre : List CartEntry) (e : CartEntry)
    (post : List CartEntry) (hs : s.items = pre ++ e :: post)
    (hpre : ∀ x ∈ pre, x.id ≠ id) (he : e.id = id) :
    (increase s id).items =
      pre ++ { e with quantity := toDouble (e.quantity + 1) } :: post := by
  have hf : find (fun i => decide (i.id = id)) s.items = some (pre.length, e) := by
    rw [hs]
    exact find_of_split pre e post (fun x hx => by simpa using hpre x hx) (by simpa using he)
  simp only [increase, hf]
  rw [hs, set_split]

theorem decrease_absent (s : CartState) (id : Int)
    (h : ∀ e ∈ s.items, e.id ≠ id) : decrease s id = s := by
  have hf : find (fun i => decide (i.id = id)) s.items = none :=
    find_eq_none.mpr (fun x hx => by simpa using h x hx)
  simp [decrease, hf]

theorem decrease_split (s : CartState) (id : Int) (pre : List CartEntry) (e : CartEntry)
    (post : List CartEntry) (hs : s.items = pre ++ e :: post)
    (hpre : ∀ x ∈ pre, x.id ≠ id) (he : e.id = id) :
    (1 < e.quantity →
      (decrease s id).items =
        pre ++ { e with quantity := toDouble (e.quantity - 1) } :: post) ∧
    (e.quantity ≤ 1 → decrease s id = s) := by
  have hf : find (fun i => decide (i.id = id)) s.items = some (pre.length, e) := by
    rw [hs]
    exact find_of_split pre e post (fun x hx => by simpa using hpre x hx) (by simpa using he)
  constructor
  · intro hq
    simp only [decrease, hf, gt_iff_lt, hq, if_true]
    rw [hs, set_split]
  · intro hq
    have : ¬ 1 < e.quantity := not_lt.mpr hq
    simp [decrease, hf, this]

theorem first_with_id {s : CartState} {id : Int} (h : ∃ e ∈ s.items, e.id = id) :
    ∃ pre e post, s.items = pre ++ e :: post ∧ (∀ x ∈ pre, x.id ≠ id) ∧ e.id = id := by
  have h2 : ∃ x ∈ s.items, (fun i : CartEntry => decide (i.id = id)) x = true := by
    obtain ⟨e, he, hid⟩ := h
    exact ⟨e, he, by simpa using hid⟩
  obtain ⟨pre, e, post, hl, hpre, hit⟩ := exists_first h2
  exact ⟨pre, e, post, hl, fun x hx => by simpa using hpre x hx, by simpa using hit⟩

theorem increase_ids (s : CartState) (id : Int) : ids (increase s id) = ids s := by
  by_cases h : ∃ e ∈ s.items, e.id = id
  · obtain ⟨pre, e, post, hs, hpre, he⟩ := first_with_id h
    simp [ids, increase_split s id pre e post hs hpre he, hs]
  · rw [increase_absent s id (fun e he hid => h ⟨e, he, hid⟩)]

theorem decrease_ids (s : CartState) (id : Int) : ids (decrease s id) = ids s := by
  by_cases h : ∃ e ∈ s.items, e.id = id
  · obtain ⟨pre, e, post, hs, hpre, he⟩ := first_with_id h
    obtain ⟨h1, h2⟩ := decrease_split s id pre e post hs hpre he
    by_cases hq : 1 < e.quantity
    · simp [ids, h1 hq, hs]
    · rw [h2 (not_lt.mp hq)]
  · rw [decrease_absent s id (fun e he hid => h ⟨e, he, hid⟩)]

theorem length_eq_of_ids {s t : CartState} (h : ids s = ids t) :
    s.items.length = t.items.length := by
  have := congrArg List.length h
  simpa [ids] using this

theorem nodup_split {s : CartState} {pre post : List CartEntry} {e : CartEntry}
    (hnd : (ids s).Nodup) (hs : s.items = pre ++ e :: post) :
    (∀ x ∈ pre, x.id ≠ e.id) ∧ (∀ x ∈ post, x.id ≠ e.id) := by
  simp only [ids, hs, List.map_append, List.map_cons] at hnd
  rw [List.nodup_append] at hnd
  obtain ⟨_, h2, h3⟩ := hnd
  constructor
  · intro x hx hid
    exact h3 (List.mem_map_of_mem (fun i : CartEntry => i.id) hx) (by simp [hid])
  · intro x hx hid
    have h4 := (List.nodup_cons.mp h2).1
    exact h4 (by rw [← hid]; exact List.mem_map_of_mem (fun i : CartEntry => i.id) hx)

theorem filter_ne_all {l : List CartEntry} {id : Int} (h : ∀ x ∈ l, x.id ≠ id) :
    l.filter (fun i => decide (i.id ≠ id)) = l :=
  List.filter_eq_self.mpr (fun x hx => by simpa using h x hx)

/-! Preservation of the two invariants by the reducers. -/

theorem reducer_ids_nodup (s : CartState) (a : Action) (h : (ids s).Nodup) :
    (ids (reducer s a)).Nodup := by
  cases a with
  | addToCart p =>
    simp only [reducer]
    by_cases hp : ∃ e ∈ s.items, e.id = p.id
    · rw [addToCart_present s p hp]; exact h
    · have habs : ∀ e ∈ s.items, e.id ≠ p.id := fun e he hid => hp ⟨e, he, hid⟩
      rw [addToCart_absent s p habs]
      simp only [ids, List.map_append, List.map_cons, List.map_nil]
      refine List.Nodup.append h (List.nodup_singleton _) ?_
      intro x hx hx2
      rw [List.mem_singleton] at hx2
      obtain ⟨e, he, hid⟩ := List.mem_map.mp hx
      exact habs e he (hid.trans hx2)
  | increase id => simp only [reducer, increase_ids]; exact h
  | decrease id => simp only [reducer, decrease_ids]; exact h
  | remove id =>
    simp only [reducer, ids, remove]
    exact h.sublist ((List.filter_sublist _).map _)

theorem reducer_quantity_pos (s : CartState) (a : Action)
    (h : ∀ e ∈ s.items, 1 ≤ e.quantity) : ∀ e ∈ (reducer s a).items, 1 ≤ e.quantity := by
  cases a with
  | addToCart p =>
    simp only [reducer]
    by_cases hp : ∃ e ∈ s.items, e.id = p.id
    · rw [addToCart_present s p hp]; exact h
    · rw [addToCart_absent s p (fun e he hid => hp ⟨e, he, hid⟩)]
      intro e he
      rcases List.mem_append.mp he with he | he
      · exact h e he
      · rw [List.mem_singleton.mp he]
  | increase id =>
    simp only [reducer]
    by_cases hp : ∃ e ∈ s.items, e.id = id
    · obtain ⟨pre, e, post, hs, hpre, he⟩ := first_with_id hp
      rw [increase_split s id pre e post hs hpre he]
      have he1 : 1 ≤ e.quantity := h e (by simp [hs])
      intro x hx
      rcases List.mem_append.mp hx with hx | hx
      · exact h x (by simp [hs, hx])
      · rcases List.mem_cons.mp hx with rfl | hx
        · show 1 ≤ toDouble (e.quantity + 1)
          exact toDouble_pos (by omega)
        · exact h x (by simp [hs, hx])
    · rw [increase_absent s id (fun e he hid => hp ⟨e, he, hid⟩)]; exact h
  | decrease id =>
    simp only [reducer]
    by_cases hp : ∃ e ∈ s.items, e.id = id
    · obtain ⟨pre, e, post, hs, hpre, he⟩ := first_with_id hp
      obtain ⟨h1, h2⟩ := decrease_split s id pre e post hs hpre he
      by_cases hq : 1 < e.quantity
      · rw [h1 hq]
        intro x hx
        rcases List.mem_append.mp hx with hx | hx
        · exact h x (by simp [hs, hx])
        · rcases List.mem_cons.mp hx with rfl | hx
          · show 1 ≤ toDouble (e.quantity - 1)
            exact toDouble_pos (by omega)
          · exact h x (by simp [hs, hx])
      · rw [h2 (not_lt.mp hq)]; exact h
    · rw [decrease_absent s id (fun e he hid => hp ⟨e, he, hid⟩)]; exact h
  | remove id =>
    intro e he
    exact h e (List.mem_filter.mp he).1

theorem reducer_quantity_range (s : CartState) (a : Action)
    (h : ∀ e ∈ s.items, 1 ≤ e.quantity ∧ e.quantity ≤ 2 ^ 53) :
    ∀ e ∈ (reducer s a).items, 1 ≤ e.quantity ∧ e.quantity ≤ 2 ^ 53 := by
  have hpos : ∀ e ∈ (reducer s a).items, 1 ≤ e.quantity :=
    reducer_quantity_pos s a (fun e he => (h e he).1)
  refine fun x hx => ⟨hpos x hx, ?_⟩
  cases a with
  | addToCart p =>
    simp only [reducer] at hx
    by_cases hp : ∃ e ∈ s.items, e.id = p.id
    · rw [addToCart_present s p hp] at hx; exact (h x hx).2
    · rw [addToCart_absent s p (fun e he hid => hp ⟨e, he, hid⟩)] at hx
      rcases List.mem_append.mp hx with hx | hx
      · exact (h x hx).2
      · rw [List.mem_singleton.mp hx]
        show (1 : Int) ≤ 2 ^ 53
        norm_num
  | increase id =>
    simp only [reducer] at hx
    by_cases hp : ∃ e ∈ s.items, e.id = id
    · obtain ⟨pre, e, post, hs, hpre, he⟩ := first_with_id hp
      rw [increase_split s id pre e post hs hpre he] at hx
      have he1 := h e (by simp [hs])
      rcases List.mem_append.mp hx with hx | hx
      · exact (h x (by simp [hs, hx])).2
      · rcases List.mem_cons.mp hx with rfl | hx
        · show toDouble (e.quantity + 1) ≤ 2 ^ 53
          by_cases hq : e.quantity + 1 ≤ 2 ^ 53
          · rw [toDouble_exact (by omega) hq]; exact hq
          · have hq2 : e.quantity = 9007199254740992 := by omega
            rw [hq2]
            decide
        · exact (h x (by simp [hs, hx])).2
    · rw [increase_absent s id (fun e he hid => hp ⟨e, he, hid⟩)] at hx; exact (h x hx).2
  | decrease id =>
    simp only [reducer] at hx
    by_cases hp : ∃ e ∈ s.items, e.id = id
    · obtain ⟨pre, e, post, hs, hpre, he⟩ := first_with_id hp
      obtain ⟨h1, h2⟩ := decrease_split s id pre e post hs hpre he
      have he1 := h e (by simp [hs])
      by_cases hq : 1 < e.quantity
      · rw [h1 hq] at hx
        rcases List.mem_append.mp hx with hx | hx
        · exact (h x (by simp [hs, hx])).2
        · rcases List.mem_cons.mp hx with rfl | hx
          · show toDouble (e.quantity - 1) ≤ 2 ^ 53
            rw [toDouble_exact (by omega) (by omega)]
            omega
          · exact (h x (by simp [hs, hx])).2
      · rw [h2 (not_lt.mp hq)] at hx; exact (h x hx).2
    · rw [decrease_absent s id (fun e he hid => hp ⟨e, he, hid⟩)] at hx; exact (h x hx).2
  | remove id =>
    exact (h x (List.mem_filter.mp hx).1).2

theorem foldl_reducer_invariant (P : CartState → Prop)
    (hstep : ∀ s a, P s → P (reducer s a)) (actions : List Action) (s : CartState)
    (h : P s) : P (actions.foldl reducer s) := by
  induction actions generalizing s with
  | nil => exact h
  | cons a t ih => exact ih (reducer s a) (hstep s a h)

theorem reachable_invariant (P : CartState → Prop) (h0 : P initialState)
    (hstep : ∀ s a, P s → P (reducer s a)) {s : CartState} (hr : Reachable s) : P s := by
  obtain ⟨actions, rfl⟩ := hr
  exact foldl_reducer_invariant P hstep actions initialState h0

/-! The derived totals as sums. -/

theorem foldl_add_eq_sum (f : CartEntry → Int) (l : List CartEntry) (a : Int) :
    l.foldl (fun sum i => sum + f i) a = a + (l.map f).sum := by
  induction l generalizing a with
  | nil => simp
  | cons x t ih => simp [ih, add_assoc]

theorem length_le_sum_quantity (l : List CartEntry) (h : ∀ e ∈ l, 1 ≤ e.quantity) :
    (l.length : Int) ≤ (l.map (fun i => i.quantity)).sum := by
  induction l with
  | nil => simp
  | cons x t ih =>
    have hx := h x (List.mem_cons_self _ _)
    have ht := ih (fun e he => h e (List.mem_cons_of_mem _ he))
    simp only [List.length_cons, List.map_cons, List.sum_cons]
    push_cast
    omega

/-! The totals in double arithmetic, and the reachability of a saturated quantity. -/

theorem foldl_jsAdd_exact (g : CartEntry → JSNumber) (f : CartEntry → Int)
    (l : List CartEntry) (a : Int) (ha : 0 ≤ a) (hf : ∀ e ∈ l, 0 ≤ f e)
    (hg : ∀ e ∈ l, 0 ≤ f e → f e ≤ 2 ^ 53 → g e = .finite (f e))
    (hsum : a + (l.map f).sum ≤ 2 ^ 53) :
    l.foldl (fun sum i => jsAdd sum (g i)) (.finite a) = .finite (a + (l.map f).sum) := by
  induction l generalizing a with
  | nil => simp
  | cons x t ih =>
    have hx : 0 ≤ f x := hf x (List.mem_cons_self _ _)
    have ht : 0 ≤ (t.map f).sum :=
      List.sum_nonneg (fun y hy => by
        obtain ⟨e, he, rfl⟩ := List.mem_map.mp hy
        exact hf e (List.mem_cons_of_mem _ he))
    simp only [List.map_cons, List.sum_cons] at hsum
    have hgx : g x = .finite (f x) := hg x (List.mem_cons_self _ _) hx (by omega)
    have hstep : jsAdd (.finite a) (g x) = .finite (a + f x) := by
      rw [hgx]
      show fromExact (a + f x) = .finite (a + f x)
      exact fromExact_exact (by omega) (by omega)
    simp only [List.foldl_cons, List.map_cons, List.sum_cons, hstep]
    rw [ih (a + f x) (by omega) (fun e he => hf e (List.mem_cons_of_mem _ he))
      (fun e he => hg e (List.mem_cons_of_mem _ he)) (by omega)]
    congr 1
    omega

theorem foldl_jsAdd_pos (l : List CartEntry) (x : JSNumber)
    (hx : x = .infinity false ∨ ∃ m, 1 ≤ m ∧ x = .finite m)
    (hq : ∀ e ∈ l, 1 ≤ e.quantity) :
    l.foldl (fun sum i => jsAdd sum (.finite i.quantity)) x = .infinity false ∨
      ∃ m, 1 ≤ m ∧ l.foldl (fun sum i => jsAdd sum (.finite i.quantity)) x = .finite m := by
  induction l generalizing x with
  | nil => exact hx
  | cons y t ih =>
    have hy : 1 ≤ y.quantity := hq y (List.mem_cons_self _ _)
    refine ih _ ?_ (fun e he => hq e (List.mem_cons_of_mem _ he))
    rcases hx with rfl | ⟨m, hm, rfl⟩
    · exact Or.inl rfl
    · exact fromExact_pos (by omega)

theorem run_increases (n : Nat) (q : Int) (hq : -(2 ^ 53) ≤ q) (h : q + n ≤ 2 ^ 53) :
    (List.replicate n (Action.increase 1)).foldl reducer (snakeCart q) =
      snakeCart (q + n) := by
  induction n generalizing q with
  | zero => simp
  | succ k ih =>
    have hstep : reducer (snakeCart q) (.increase 1) = snakeCart (q + 1) := by
      have hd : toDouble (q + 1) = q + 1 := toDouble_exact (by omega) (by push_cast at h; omega)
      simp [reducer, increase, snakeCart, find, snakePlant, hd]
    rw [List.replicate_succ, List.foldl_cons, hstep, ih (q + 1) (by omega)
      (by push_cast at h ⊢; omega)]
    congr 1
    push_cast
    omega

theorem reachable_snakeCart (n : Nat) (h : (1 : Int) + n ≤ 2 ^ 53) :
    Reachable (snakeCart (1 + n)) := by
  refine ⟨.addToCart snakePlant :: List.replicate n (.increase 1), ?_⟩
  have h0 : reducer initialState (.addToCart snakePlant) = snakeCart 1 := rfl
  rw [run, List.foldl_cons, h0]
  exact run_increases n 1 (by norm_num) h

theorem reachable_snakeCart_saturated : Reachable (snakeCart 9007199254740992) := by
  have h := reachable_snakeCart 9007199254740991 (by norm_num)
  have e : (1 : Int) + ((9007199254740991 : Nat) : Int) = 9007199254740992 := by norm_num
  rw [e] at h
  exact h

/-! The four transitions. -/

/-- C1. When no entry of the cart carries the product's id, `addToCart` returns the cart
followed by one new entry, the product's fields with quantity 1: the length grows by one,
the first entries are those of the cart, in order and unchanged, and the entries with the
product's id are exactly that new one. -/
theorem addToCart_appends_new_entry (s : CartState) (p : Product)
    (h : ∀ e ∈ s.items, e.id ≠ p.id) :
    (addToCart s p).items = s.items ++ [{ toProduct := p, quantity := 1 }] ∧
    (addToCart s p).items.length = s.items.length + 1 ∧
    (addToCart s p).items.take s.items.length = s.items ∧
    (addToCart s p).items.filter (fun e => decide (e.id = p.id)) =
      [{ toProduct := p, quantity := 1 }] := by
  rw [addToCart_absent s p h]
  refine ⟨rfl, by simp, by simp, ?_⟩
  have hnone : s.items.filter (fun e => decide (e.id = p.id)) = [] :=
    List.filter_eq_nil_iff.mpr (fun x hx => by simpa using h x hx)
  simp [List.filter_append, hnone]

theorem addToCart_appends_new_entry_witness :
    (∀ e ∈ lilyCart.items, e.id ≠ snakePlant.id) ∧
    (addToCart lilyCart snakePlant).items =
      lilyCart.items ++ [{ toProduct := snakePlant, quantity := 1 }] ∧
    (addToCart lilyCart snakePlant).items.length = lilyCart.items.length + 1 ∧
    (addToCart lilyCart snakePlant).items.take lilyCart.items.length = lilyCart.items ∧
    (addToCart lilyCart snakePlant).items.filter (fun e => decide (e.id = snakePlant.id)) =
      [{ toProduct := snakePlant, quantity := 1 }] :=
  have h : ∀ e ∈ lilyCart.items, e.id ≠ snakePlant.id := by
    simp [lilyCart, snakePlant]
  ⟨h, addToCart_appends_new_entry lilyCart snakePlant h⟩

/-- C2. When some entry of the cart carries the product's id, `addToCart` returns the cart
unchanged, whatever the other fields of the product are. -/
theorem addToCart_existing_unchanged (s : CartState) (p : Product)
    (h : ∃ e ∈ s.items, e.id = p.id) : addToCart s p = s :=
  addToCart_present s p h

theorem addToCart_existing_unchanged_witness :
    (∃ e ∈ mixedCart.items, e.id = ({ snakePlant with price := 1 } : Product).id) ∧
    addToCart mixedCart { snakePlant with price := 1 } = mixedCart :=
  have h : ∃ e ∈ mixedCart.items, e.id = ({ snakePlant with price := 1 } : Product).id :=
    ⟨{ toProduct := snakePlant, quantity := 1 }, by simp [mixedCart], rfl⟩
  ⟨h, addToCart_existing_unchanged mixedCart { snakePlant with price := 1 } h⟩

/-- At quantity `2 ^ 53`, a quantity that repeated `increase` dispatches lead to, the double
addition of 1 gives `2 ^ 53` again: `increase` returns the cart unchanged although an
entry carries the id. -/
theorem increase_at_two_pow_53_unchanged :
    Reachable (snakeCart 9007199254740992) ∧
    (∃ e ∈ (snakeCart 9007199254740992).items, e.id = 1) ∧
    increase (snakeCart 9007199254740992) 1 = snakeCart 9007199254740992 ∧
    (increase (snakeCart 9007199254740992) 1).items ≠
      [{ toProduct := snakePlant, quantity := 9007199254740992 + 1 }] :=
  ⟨reachable_snakeCart_saturated, ⟨_, List.mem_singleton_self _, rfl⟩, by decide, by decide⟩

/-- C3, amended. For every cart and id: when some entry carries the id, `increase` returns
the cart with the quantity of the entry carrying the id (the first one, which is the only
one when ids are pairwise distinct) replaced by the double nearest to that quantity plus
one, its other fields and all other entries unchanged; that is a rise by exactly one
whenever the quantity plus one lies between `-2 ^ 53` and `2 ^ 53`, so for every quantity
from 1 to `2 ^ 53 - 1`.  When no entry carries the id the cart is returned unchanged; in
both cases the length and the sequence of ids are those of the cart. -/
theorem increase_raises_quantity_by_one_below_two_pow_53 (s : CartState) (id : Int) :
    ((∃ e ∈ s.items, e.id = id) →
      ∃ pre e post, s.items = pre ++ e :: post ∧ (∀ x ∈ pre, x.id ≠ id) ∧ e.id = id ∧
        ((ids s).Nodup → ∀ x ∈ post, x.id ≠ id) ∧
        (increase s id).items =
          pre ++ { toProduct := e.toProduct, quantity := toDouble (e.quantity + 1) } :: post ∧
        (-(2 ^ 53) ≤ e.quantity + 1 → e.quantity + 1 ≤ 2 ^ 53 →
          (increase s id).items =
            pre ++ { toProduct := e.toProduct, quantity := e.quantity + 1 } :: post)) ∧
    ((∀ e ∈ s.items, e.id ≠ id) → increase s id = s) ∧
    (increase s id).items.length = s.items.length ∧
    ids (increase s id) = ids s := by
  refine ⟨fun h => ?_, increase_absent s id, length_eq_of_ids (increase_ids s id),
    increase_ids s id⟩
  obtain ⟨pre, e, post, hs, hpre, he⟩ := first_with_id h
  have hres := increase_split s id pre e post hs hpre he
  refine ⟨pre, e, post, hs, hpre, he, fun hnd => he ▸ (nodup_split hnd hs).2, hres, ?_⟩
  intro h1 h2
  rw [hres, toDouble_exact h1 h2]

theorem increase_raises_quantity_by_one_below_two_pow_53_witness :
    (∃ e ∈ mixedCart.items, e.id = 2) ∧
    (∃ pre e post, mixedCart.items = pre ++ e :: post ∧ (∀ x ∈ pre, x.id ≠ 2) ∧ e.id = 2 ∧
      ((ids mixedCart).Nodup → ∀ x ∈ post, x.id ≠ 2) ∧
      (increase mixedCart 2).items =
        pre ++ { toProduct := e.toProduct, quantity := toDouble (e.quantity + 1) } :: post ∧
      (-(2 ^ 53) ≤ e.quantity + 1 → e.quantity + 1 ≤ 2 ^ 53 →
        (increase mixedCart 2).items =
          pre ++ { toProduct := e.toProduct, quantity := e.quantity + 1 } :: post)) ∧
    (increase mixedCart 2).items =
      [{ toProduct := snakePlant, quantity := 1 },
       { id := 2, name := "Peace Lily", price := 420, category := "Indoor",
         image := "https://via.placeholder.com/100", quantity := 4 }] ∧
    (∀ e ∈ mixedCart.items, e.id ≠ 7) ∧ increase mixedCart 7 = mixedCart :=
  have h2 : ∃ e ∈ mixedCart.items, e.id = 2 :=
    ⟨_, List.mem_cons_of_mem _ (List.mem_singleton_self _), rfl⟩
  have h7 : ∀ e ∈ mixedCart.items, e.id ≠ 7 := by simp [mixedCart, snakePlant]
  ⟨h2, (increase_raises_quantity_by_one_below_two_pow_53 mixedCart 2).1 h2, by decide, h7,
    (increase_raises_quantity_by_one_below_two_pow_53 mixedCart 7).2.1 h7⟩

/-- Above `2 ^ 53` the double subtraction of 1 is not a fall by one: from `2 ^ 53 + 2`
the quantity falls by two, to `2 ^ 53`, and `2 ^ 53 + 4` is left unchanged although it
is above 1. -/
theorem decrease_above_two_pow_53_not_by_one :
    (∃ e ∈ (snakeCart 9007199254740994).items, e.id = 1 ∧ 1 < e.quantity) ∧
    decrease (snakeCart 9007199254740994) 1 = snakeCart 9007199254740992 ∧
    decrease (snakeCart 9007199254740994) 1 ≠ snakeCart (9007199254740994 - 1) ∧
    (∃ e ∈ (snakeCart 9007199254740996).items, e.id = 1 ∧ 1 < e.quantity) ∧
    decrease (snakeCart 9007199254740996) 1 = snakeCart 9007199254740996 ∧
    decrease (snakeCart 9007199254740996) 1 ≠ snakeCart (9007199254740996 - 1) :=
  ⟨⟨_, List.mem_singleton_self _, rfl, by decide⟩, by decide, by decide,
    ⟨_, List.mem_singleton_self _, rfl, by decide⟩, by decide, by decide⟩

/-- C4, amended. For every cart and id: when the entry carrying the id (the first one, which
is the only one when ids are pairwise distinct) has a quantity above 1, `decrease` returns
the cart with that quantity replaced by the double nearest to the quantity minus one and
everything else unchanged; that is a fall by exactly one whenever the quantity is at most
`2 ^ 53 + 1`, as every quantity of a reachable cart is.  When its quantity is 1 (or less),
or when no entry carries the id, the cart is returned unchanged; in every case the length
and the sequence of ids are those of the cart. -/
theorem decrease_lowers_quantity_by_one_up_to_two_pow_53 (s : CartState) (id : Int) :
    ((∃ e ∈ s.items, e.id = id) →
      ∃ pre e post, s.items = pre ++ e :: post ∧ (∀ x ∈ pre, x.id ≠ id) ∧ e.id = id ∧
        ((ids s).Nodup → ∀ x ∈ post, x.id ≠ id) ∧
        (1 < e.quantity → (decrease s id).items =
          pre ++ { toProduct := e.toProduct, quantity := toDouble (e.quantity - 1) } :: post) ∧
        (1 < e.quantity → e.quantity - 1 ≤ 2 ^ 53 → (decrease s id).items =
          pre ++ { toProduct := e.toProduct, quantity := e.quantity - 1 } :: post) ∧
        (e.quantity ≤ 1 → decrease s id = s)) ∧
    ((∀ e ∈ s.items, e.id ≠ id) → decrease s id = s) ∧
    (decrease s id).items.length = s.items.length ∧
    ids (decrease s id) = ids s ∧
    (Reachable s → ∀ e ∈ s.items, 1 ≤ e.quantity ∧ e.quantity ≤ 2 ^ 53) := by
  refine ⟨fun h => ?_, decrease_absent s id, length_eq_of_ids (decrease_ids s id),
    decrease_ids s id, fun hr => ?_⟩
  · obtain ⟨pre, e, post, hs, hpre, he⟩ := first_with_id h
    obtain ⟨h1, h2⟩ := decrease_split s id pre e post hs hpre he
    refine ⟨pre, e, post, hs, hpre, he, fun hnd => he ▸ (nodup_split hnd hs).2, h1, ?_, h2⟩
    intro hq hle
    rw [h1 hq, toDouble_exact (by omega) hle]
  · exact reachable_invariant (fun t => ∀ e ∈ t.items, 1 ≤ e.quantity ∧ e.quantity ≤ 2 ^ 53)
      (fun e he => by simp [initialState] at he) reducer_quantity_range hr

theorem decrease_lowers_quantity_by_one_up_to_two_pow_53_witness :
    (∃ e ∈ mixedCart.items, e.id = 2) ∧
    (∃ pre e post, mixedCart.items = pre ++ e :: post ∧ (∀ x ∈ pre, x.id ≠ 2) ∧ e.id = 2 ∧
      ((ids mixedCart).Nodup → ∀ x ∈ post, x.id ≠ 2) ∧
      (1 < e.quantity → (decrease mixedCart 2).items =
        pre ++ { toProduct := e.toProduct, quantity := toDouble (e.quantity - 1) } :: post) ∧
      (1 < e.quantity → e.quantity - 1 ≤ 2 ^ 53 → (decrease mixedCart 2).items =
        pre ++ { toProduct := e.toProduct, quantity := e.quantity - 1 } :: post) ∧
      (e.quantity ≤ 1 → decrease mixedCart 2 = mixedCart)) ∧
    (decrease mixedCart 2).items =
      [{ toProduct := snakePlant, quantity := 1 },
       { id := 2, name := "Peace Lily", price := 420, category := "Indoor",
         image := "https://via.placeholder.com/100", quantity := 2 }] ∧
    decrease mixedCart 1 = mixedCart ∧
    (∀ e ∈ mixedCart.items, e.id ≠ 7) ∧ decrease mixedCart 7 = mixedCart :=
  have h2 : ∃ e ∈ mixedCart.items, e.id = 2 :=
    ⟨_, List.mem_cons_of_mem _ (List.mem_singleton_self _), rfl⟩
  have h7 : ∀ e ∈ mixedCart.items, e.id ≠ 7 := by simp [mixedCart, snakePlant]
  ⟨h2, (decrease_lowers_quantity_by_one_up_to_two_pow_53 mixedCart 2).1 h2, by decide,
    by decide, h7, (decrease_lowers_quantity_by_one_up_to_two_pow_53 mixedCart 7).2.1 h7⟩

/-- C5. For every cart and every id: `remove` leaves no entry carrying the id, keeps every
other entry with its values and in its order, and returns the cart unchanged when no entry
carries the id.  In a cart with at most one entry per id, as the data model has it and as
every cart the store can reach is, when an entry carries the id exactly that entry is
deleted and the result is one entry shorter. -/
theorem remove_deletes_matching_entry (s : CartState) (id : Int) :
    ((ids s).Nodup → (∃ e ∈ s.items, e.id = id) →
      ∃ pre e post, s.items = pre ++ e :: post ∧ e.id = id ∧
        (remove s id).items = pre ++ post ∧
        (remove s id).items.length = s.items.length - 1) ∧
    (Reachable s → (ids s).Nodup) ∧
    ((∀ e ∈ s.items, e.id ≠ id) → remove s id = s) ∧
    (∀ x ∈ (remove s id).items, x.id ≠ id) ∧
    (∀ x ∈ s.items, x.id ≠ id → x ∈ (remove s id).items) ∧
    (remove s id).items.Sublist s.items := by
  refine ⟨fun hnd h => ?_, fun hr => ?_, fun h => ?_, fun x hx => ?_, fun x hx hid => ?_, ?_⟩
  · obtain ⟨pre, e, post, hs, _, he⟩ := first_with_id h
    obtain ⟨hpre, hpost⟩ := nodup_split hnd hs
    rw [he] at hpre hpost
    have hres : (remove s id).items = pre ++ post := by
      simp only [remove, hs, List.filter_append, List.filter_cons, filter_ne_all hpre,
        filter_ne_all hpost]
      simp [he]
    exact ⟨pre, e, post, hs, he, hres, by simp [hres, hs]⟩
  · exact reachable_invariant (fun t => (ids t).Nodup) List.nodup_nil reducer_ids_nodup hr
  · simp only [remove, filter_ne_all h]
  · have := (List.mem_filter.mp hx).2
    simpa using this
  · exact List.mem_filter.mpr ⟨hx, by simpa using hid⟩
  · exact List.filter_sublist _

theorem remove_deletes_matching_entry_witness :
    (ids mixedCart).Nodup ∧ (∃ e ∈ mixedCart.items, e.id = 1) ∧
    (∃ pre e post, mixedCart.items = pre ++ e :: post ∧ e.id = 1 ∧
      (remove mixedCart 1).items = pre ++ post ∧
      (remove mixedCart 1).items.length = mixedCart.items.length - 1) ∧
    (remove mixedCart 1).items =
      [{ id := 2, name := "Peace Lily", price := 420, category := "Indoor",
         image := "https://via.placeholder.com/100", quantity := 3 }] ∧
    (∀ e ∈ mixedCart.items, e.id ≠ 7) ∧ remove mixedCart 7 = mixedCart :=
  have hnd : (ids mixedCart).Nodup := by decide
  have h1 : ∃ e ∈ mixedCart.items, e.id = 1 := ⟨_, List.mem_cons_self _ _, rfl⟩
  have h7 : ∀ e ∈ mixedCart.items, e.id ≠ 7 := by simp [mixedCart, snakePlant]
  ⟨hnd, h1, (remove_deletes_matching_entry mixedCart 1).1 hnd h1, rfl, h7,
    (remove_deletes_matching_entry mixedCart 7).2.2.1 h7⟩

/-! The invariants of the reachable states. -/

/-- C6. In every cart the store can reach from the initial empty cart, by any finite
sequence of the four actions with any payloads, the ids of the entries are pairwise
distinct; the predicate holds of the initial state and each of the four reducers
preserves it. -/
theorem reachable_ids_pairwise_distinct :
    (∀ s, Reachable s → (ids s).Nodup ∧ s.items.Pairwise (fun a b => a.id ≠ b.id)) ∧
    (ids initialState).Nodup ∧
    (∀ s, (ids s).Nodup →
      (∀ p, (ids (addToCart s p)).Nodup) ∧ (∀ id, (ids (increase s id)).Nodup) ∧
      (∀ id, (ids (decrease s id)).Nodup) ∧ (∀ id, (ids (remove s id)).Nodup)) := by
  refine ⟨fun s hr => ?_, List.nodup_nil, fun s h => ⟨fun p => ?_, fun id => ?_, fun id => ?_,
    fun id => ?_⟩⟩
  · have hnd : (ids s).Nodup :=
      reachable_invariant (fun t => (ids t).Nodup) List.nodup_nil reducer_ids_nodup hr
    exact ⟨hnd, (List.pairwise_map (f := fun i : CartEntry => i.id)).mp hnd⟩
  · exact reducer_ids_nodup s (.addToCart p) h
  · exact reducer_ids_nodup s (.increase id) h
  · exact reducer_ids_nodup s (.decrease id) h
  · exact reducer_ids_nodup s (.remove id) h

theorem reachable_ids_pairwise_distinct_witness :
    Reachable (run [.addToCart snakePlant, .addToCart snakePlant, .increase 1]) ∧
    (ids (run [.addToCart snakePlant, .addToCart snakePlant, .increase 1])).Nodup :=
  ⟨⟨_, rfl⟩, (reachable_ids_pairwise_distinct.1 _ ⟨_, rfl⟩).1⟩

/-- C7. In every cart the store can reach from the initial empty cart every entry has a
quantity of at least 1: each reducer preserves the property, and in particular no sequence
of `decrease` transitions from a reachable cart brings a quantity to 0. -/
theorem reachable_quantity_at_least_one :
    (∀ s, Reachable s → ∀ e ∈ s.items, 1 ≤ e.quantity) ∧
    (∀ s, (∀ e ∈ s.items, 1 ≤ e.quantity) →
      ∀ a, ∀ e ∈ (reducer s a).items, 1 ≤ e.quantity) ∧
    (∀ s, Reachable s → ∀ payloads : List Int,
      ∀ e ∈ (payloads.foldl decrease s).items, 1 ≤ e.quantity ∧ e.quantity ≠ 0) := by
  have hreach : ∀ s, Reachable s → ∀ e ∈ s.items, 1 ≤ e.quantity := fun s hr =>
    reachable_invariant (fun t => ∀ e ∈ t.items, 1 ≤ e.quantity)
      (fun e he => by simp [initialState] at he) reducer_quantity_pos hr
  refine ⟨hreach, fun s h a => reducer_quantity_pos s a h, fun s hr payloads => ?_⟩
  have hs := hreach s hr
  clear hr
  induction payloads generalizing s with
  | nil => exact fun e he => ⟨hs e he, by have := hs e he; omega⟩
  | cons id t ih => exact ih (decrease s id) (reducer_quantity_pos s (.decrease id) hs)

theorem reachable_quantity_at_least_one_witness :
    Reachable (run [.addToCart snakePlant, .increase 1]) ∧
    ∀ e ∈ ([1, 1, 1, 1].foldl decrease (run [.addToCart snakePlant, .increase 1])).items,
      1 ≤ e.quantity ∧ e.quantity ≠ 0 :=
  ⟨⟨_, rfl⟩, reachable_quantity_at_least_one.2.2 _ ⟨_, rfl⟩ [1, 1, 1, 1]⟩

/-! The derived totals. -/

/-- Above `2 ^ 53` the totals are not the sums.  Adding the orchid, of price `2 ^ 53 - 1`,
and increasing it twice gives quantity 3; the double product `3 * (2 ^ 53 - 1)` is
27021597764222972, one less than the exact product.  With quantities `2 ^ 53` and 1 the
double sum is `2 ^ 53`, one less than the sum of the quantities. -/
theorem totals_differ_from_sums_above_two_pow_53 :
    run [.addToCart orchid, .increase 7, .increase 7] =
      { items := [{ toProduct := orchid, quantity := 3 }] } ∧
    totalCost64 { cart := run [.addToCart orchid, .increase 7, .increase 7] } =
      .finite 27021597764222972 ∧
    ((run [.addToCart orchid, .increase 7, .increase 7]).items.map
      (fun i => i.quantity * i.price)).sum = 27021597764222973 ∧
    totalItems64 { cart := heavyCart } = .finite 9007199254740992 ∧
    cartCount64 { cart := heavyCart } = .finite 9007199254740992 ∧
    (heavyCart.items.map (fun i => i.quantity)).sum = 9007199254740993 :=
  ⟨by decide, by decide, by decide, by decide, by decide, by decide⟩

/-- C8, amended. For every state whose quantities are non-negative and sum to at most
`2 ^ 53`, the `totalItems` of the cart view is the sum of the quantities of the entries;
for every state whose quantities and prices are non-negative with the sum of quantity
times price at most `2 ^ 53`, its `totalCost` is that sum; both are 0 for the empty cart;
and the cart count of the header is that same `totalItems`, in every state. -/
theorem totals_are_sums_up_to_two_pow_53 (state : RootState) :
    ((∀ e ∈ state.cart.items, 0 ≤ e.quantity) →
      (state.cart.items.map (fun i => i.quantity)).sum ≤ 2 ^ 53 →
      totalItems64 state = .finite (state.cart.items.map (fun i => i.quantity)).sum) ∧
    ((∀ e ∈ state.cart.items, 0 ≤ e.quantity ∧ 0 ≤ e.price) →
      (state.cart.items.map (fun i => i.quantity * i.price)).sum ≤ 2 ^ 53 →
      totalCost64 state =
        .finite (state.cart.items.map (fun i => i.quantity * i.price)).sum) ∧
    (state.cart.items = [] →
      totalItems64 state = .finite 0 ∧ totalCost64 state = .finite 0) ∧
    cartCount64 state = totalItems64 state := by
  refine ⟨fun hq hsum => ?_, fun hqp hsum => ?_, fun h => ?_, rfl⟩
  · have := foldl_jsAdd_exact (fun i => .finite i.quantity) (fun i => i.quantity)
      state.cart.items 0 le_rfl hq (fun e _ _ _ => rfl) (by omega)
    simpa [totalItems64] using this
  · have := foldl_jsAdd_exact (fun i => jsMul i.quantity i.price)
      (fun i => i.quantity * i.price) state.cart.items 0 le_rfl
      (fun e he => mul_nonneg (hqp e he).1 (hqp e he).2)
      (fun e _ h0 h1 => fromExact_exact (le_trans (by norm_num) h0) h1) (by omega)
    simpa [totalCost64] using this
  · simp [totalItems64, totalCost64, h]

theorem totals_are_sums_up_to_two_pow_53_witness :
    (∀ e ∈ mixedCart.items, 0 ≤ e.quantity ∧ 0 ≤ e.price) ∧
    (mixedCart.items.map (fun i => i.quantity)).sum ≤ 2 ^ 53 ∧
    (mixedCart.items.map (fun i => i.quantity * i.price)).sum ≤ 2 ^ 53 ∧
    totalItems64 { cart := mixedCart } =
      .finite (mixedCart.items.map (fun i => i.quantity)).sum ∧
    totalCost64 { cart := mixedCart } =
      .finite (mixedCart.items.map (fun i => i.quantity * i.price)).sum ∧
    totalItems64 { cart := mixedCart } = .finite 4 ∧
    totalCost64 { cart := mixedCart } = .finite 1610 :=
  have hqp : ∀ e ∈ mixedCart.items, 0 ≤ e.quantity ∧ 0 ≤ e.price := by decide
  have h1 : (mixedCart.items.map (fun i => i.quantity)).sum ≤ 2 ^ 53 := by decide
  have h2 : (mixedCart.items.map (fun i => i.quantity * i.price)).sum ≤ 2 ^ 53 := by decide
  ⟨hqp, h1, h2,
    (totals_are_sums_up_to_two_pow_53 { cart := mixedCart }).1 (fun e he => (hqp e he).1) h1,
    (totals_are_sums_up_to_two_pow_53 { cart := mixedCart }).2.1 hqp h2, by decide, by decide⟩

/-- C9. From the initial empty cart, with Snake Plant the catalog product of id 1 and price
350, the actions add, increase, decrease, decrease, add, remove give in order: the
one-entry cart of Snake Plant with quantity 1, one item, cost 350; quantity 2, cost 700;
quantity 1; quantity still 1, cost 350; the same state after the second add; and the empty
cart with no item and cost 0. -/
theorem snake_plant_scenario :
    plants.find? (fun p => decide (p.id = 1)) = some snakePlant ∧ snakePlant.price = 350 ∧
    run (scenario.take 1) = { items := [{ toProduct := snakePlant, quantity := 1 }] } ∧
    totalItems { cart := run (scenario.take 1) } = 1 ∧
    totalCost { cart := run (scenario.take 1) } = 350 ∧
    run (scenario.take 2) = { items := [{ toProduct := snakePlant, quantity := 2 }] } ∧
    totalCost { cart := run (scenario.take 2) } = 700 ∧
    run (scenario.take 3) = { items := [{ toProduct := snakePlant, quantity := 1 }] } ∧
    run (scenario.take 4) = { items := [{ toProduct := snakePlant, quantity := 1 }] } ∧
    run (scenario.take 4) = run (scenario.take 3) ∧
    totalCost { cart := run (scenario.take 4) } = 350 ∧
    run (scenario.take 5) = run (scenario.take 4) ∧
    run scenario = initialState ∧ (run scenario).items = [] ∧
    totalItems { cart := run scenario } = 0 ∧ totalCost { cart := run scenario } = 0 :=
  ⟨rfl, rfl, rfl, rfl, rfl, rfl, rfl, rfl, rfl, rfl, rfl, rfl, rfl, rfl, rfl, rfl⟩

/-- C10. In every cart the store can reach from the initial empty cart, `totalItems` is at
least the number of entries, so the cart count of the header is 0 exactly when the cart
has no entry, which is when the cart view shows its empty-cart message. -/
theorem reachable_count_zero_iff_empty (s : CartState) (h : Reachable s) :
    (s.items.length : Int) ≤ totalItems { cart := s } ∧
    (cartCount { cart := s } = 0 ↔ s.items = []) ∧
    (cartCount { cart := s } = 0 ↔ showsEmptyMessage { cart := s } = true) := by
  have hq : ∀ e ∈ s.items, 1 ≤ e.quantity :=
    reachable_invariant (fun t => ∀ e ∈ t.items, 1 ≤ e.quantity)
      (fun e he => by simp [initialState] at he) reducer_quantity_pos h
  have hsum : totalItems { cart := s } = (s.items.map (fun i => i.quantity)).sum := by
    simp [totalItems, foldl_add_eq_sum (fun i => i.quantity)]
  have hle : (s.items.length : Int) ≤ totalItems { cart := s } := by
    rw [hsum]; exact length_le_sum_quantity s.items hq
  have hiff : cartCount { cart := s } = 0 ↔ s.items = [] := by
    constructor
    · intro h0
      have h1 : (s.items.length : Int) ≤ 0 := by
        have : cartCount { cart := s } = totalItems { cart := s } := rfl
        omega
      have h2 : s.items.length = 0 := by omega
      exact List.length_eq_zero.mp h2
    · intro hnil
      simp [cartCount, hnil]
  refine ⟨hle, hiff, hiff.trans ?_⟩
  simp [showsEmptyMessage]

theorem reachable_count_zero_iff_empty_witness :
    Reachable (run [.addToCart snakePlant, .increase 1]) ∧
    ((run [.addToCart snakePlant, .increase 1]).items.length : Int) ≤
      totalItems { cart := run [.addToCart snakePlant, .increase 1] } ∧
    (cartCount { cart := run [.addToCart snakePlant, .increase 1] } = 0 ↔
      (run [.addToCart snakePlant, .increase 1]).items = []) ∧
    (cartCount { cart := run [.addToCart snakePlant, .increase 1] } = 0 ↔
      showsEmptyMessage { cart := run [.addToCart snakePlant, .increase 1] } = true) :=
  ⟨⟨_, rfl⟩, reachable_count_zero_iff_empty _ ⟨_, rfl⟩⟩


/-! The totals of the scenario and the cart count of the reachable carts, in double
arithmetic. -/

theorem snake_plant_scenario_totals64 :
    totalItems64 { cart := run (scenario.take 1) } = .finite 1 ∧
    totalCost64 { cart := run (scenario.take 1) } = .finite 350 ∧
    totalCost64 { cart := run (scenario.take 2) } = .finite 700 ∧
    totalCost64 { cart := run (scenario.take 4) } = .finite 350 ∧
    totalItems64 { cart := run scenario } = .finite 0 ∧
    totalCost64 { cart := run scenario } = .finite 0 :=
  ⟨by decide, by decide, by decide, by decide, by decide, by decide⟩

theorem reachable_count64_zero_iff_empty (s : CartState) (h : Reachable s) :
    cartCount64 { cart := s } = .finite 0 ↔ s.items = [] := by
  have hq : ∀ e ∈ s.items, 1 ≤ e.quantity :=
    reachable_invariant (fun t => ∀ e ∈ t.items, 1 ≤ e.quantity)
      (fun e he => by simp [initialState] at he) reducer_quantity_pos h
  constructor
  · intro h0
    cases hs : s.items with
    | nil => rfl
    | cons y t =>
      exfalso
      rw [hs] at hq
      have hy : 1 ≤ y.quantity := hq y (List.mem_cons_self _ _)
      have hpos := foldl_jsAdd_pos t (jsAdd (.finite 0) (.finite y.quantity))
        (fromExact_pos (by omega)) (fun e he => hq e (List.mem_cons_of_mem _ he))
      simp only [cartCount64, hs, List.foldl_cons] at h0
      rcases hpos with h1 | ⟨m, hm, h1⟩
      · rw [h1] at h0; cases h0
      · rw [h1] at h0
        injection h0 with h2
        omega
  · intro hnil
    simp [cartCount64, hnil]

end JaysPlant
